import Mathlib

/-!
Verification of the CLI-output parsing and command layer of a VPN GUI
front-end (`adguardvpn_gui`): the status/location/config parsers in
`cli.py` / `main.py`, the process-runner error precedence, the command
facade timeouts, and the refresh data flow.

Python strings are embedded as `List Char`; `str.lower`/`upper` are
modelled per-character (the code only meets ASCII markers), `str.strip`
as trimming ASCII whitespace, `str.splitlines` as splitting on line
feeds and carriage returns, and `s.split(sep, 1)` as a first-occurrence
split.  Fallible code (a non-zero exit) is an `Except` value.
-/

namespace AdGuard

/-- Python whitespace as tested by `str.strip` on the code's ASCII output. -/
def isSpace (c : Char) : Bool :=
  c = ' ' || c = '\t' || c = '\n' || c = '\r' || c = '\x0b' || c = '\x0c'

/-- Characters of a literal. -/
def str (s : String) : List Char := s.data

/-- Python `str.lower` (the code only compares ASCII markers). -/
def lowerS (s : List Char) : List Char := s.map Char.toLower

/-- Python `str.upper` (the code only upper-cases short mode tokens). -/
def upperS (s : List Char) : List Char := s.map Char.toUpper

/-- Python `str.lstrip`. -/
def trimLeftC (s : List Char) : List Char := s.dropWhile isSpace

/-- Python `str.rstrip`. -/
def trimRightC (s : List Char) : List Char := (s.reverse.dropWhile isSpace).reverse

/-- Python `str.strip`. -/
def trimC (s : List Char) : List Char := trimRightC (trimLeftC s)

/-- Boolean "p is an initial segment of s" (Python `str.startswith`). -/
def pfx : List Char → List Char → Bool
  | [], _ => true
  | _ :: _, [] => false
  | a :: as, b :: bs => a = b && pfx as bs

/-- Boolean "p is a final segment of s" (Python `str.endswith`). -/
def sfx (p s : List Char) : Bool := pfx p.reverse s.reverse

/-- Python `sep in s` (substring test). -/
def containsSub (sep : List Char) : List Char → Bool
  | [] => pfx sep []
  | c :: cs => pfx sep (c :: cs) || containsSub sep cs

/-- Split at the first occurrence of `sep`: Python `s.split(sep, 1)`
returning both halves, `none` when `sep` does not occur. -/
def splitFirst (sep : List Char) : List Char → Option (List Char × List Char)
  | [] => if pfx sep [] then some ([], []) else none
  | c :: cs =>
    if pfx sep (c :: cs) then some ([], (c :: cs).drop sep.length)
    else
      match splitFirst sep cs with
      | some (a, b) => some (c :: a, b)
      | none => none

/-- Python `s.split(sep, 1)[0]`: the part before the first occurrence,
or the whole string when `sep` is absent. -/
def splitPart0 (sep s : List Char) : List Char :=
  match splitFirst sep s with
  | some (a, _) => a
  | none => s

/-- Python `str.splitlines` restricted to the terminators the CLI emits
(LF, CR, CRLF). -/
def splitlinesAux : List Char → List Char → List (List Char)
  | [], acc => if acc.isEmpty then [] else [acc.reverse]
  | '\r' :: '\n' :: rest, acc => acc.reverse :: splitlinesAux rest []
  | '\n' :: rest, acc => acc.reverse :: splitlinesAux rest []
  | '\r' :: rest, acc => acc.reverse :: splitlinesAux rest []
  | c :: rest, acc => splitlinesAux rest (c :: acc)

def splitlines (s : List Char) : List (List Char) := splitlinesAux s []

/-- Structure `cli.VpnStatus`. -/
structure VpnStatus where
  connected : Bool
  location : List Char
  mode : List Char
  iface : List Char
deriving DecidableEq

/-- Function `cli.parse_status`, line for line.  The `try`/`except` around
`t.split("Connected to ", 1)[1]` (an `IndexError` when the exact-cased
marker is absent) is the `none` branch of the first `splitFirst`; the
same holds for `t.split(" in ", 1)[1]`.  `split(sep, 1)[0]` never
raises and falls back to the whole string (`splitPart0`). -/
def parse_status (text : List Char) : VpnStatus :=
  let t := trimC text
  if t = [] then ⟨false, [], [], []⟩
  else if pfx (str "connected to") (lowerS t) then
    let loc : List Char :=
      match splitFirst (str "Connected to ") t with
      | some (_, r) => trimC (splitPart0 (str " in ") r)
      | none => []
    let mode : List Char :=
      match splitFirst (str " in ") t with
      | some (_, r) => upperS (trimC (splitPart0 (str " mode") r))
      | none => []
    let iface : List Char :=
      if containsSub (str "running on ") t then
        match splitFirst (str "running on ") t with
        | some (_, r) => trimC r
        | none => []
      else []
    ⟨true, loc, mode, iface⟩
  else if containsSub (str "disconnected") (lowerS t) then ⟨false, [], [], []⟩
  else ⟨false, [], [], []⟩

/-! ## Location-table parser (`cli.parse_locations`)

The row pattern is `^(\S+)\s+(.+?)\s{2,}(.+?)\s{2,}(\d+)$`, matched with
Python's backtracking semantics: `(\S+)` is forced to the maximal
non-whitespace run (shrinking it puts a non-whitespace character under
`\s+`), `\s+` and `\s{2,}` are greedy with backtracking, `(.+?)` is
lazy, and `(\d+)$` succeeds exactly when what is left after the maximal
whitespace run is a non-empty all-digit tail (a shorter whitespace run
would put a whitespace character under `\d`). -/

def allDigits (s : List Char) : Bool := s.all fun c => '0' ≤ c && c ≤ '9'

def digitsToNat (s : List Char) : Nat :=
  s.foldl (fun a c => a * 10 + (c.toNat - '0'.toNat)) 0

/-- Length of the leading whitespace run. -/
def wsRun (s : List Char) : Nat := (s.takeWhile isSpace).length

/-- Pattern `\s{2,}(\d+)$`: only the full whitespace run can precede the digits. -/
def tailDigits (s : List Char) : Option Nat :=
  let r := wsRun s
  let d := s.drop r
  if 2 ≤ r ∧ d ≠ [] ∧ allDigits d then some (digitsToNat d) else none

/-- Pattern `(.+?)\s{2,}(\d+)$` with a lazy (shortest-first) group. -/
def matchCTail : List Char → Option (List Char × Nat)
  | [] => none
  | c :: rest =>
    match tailDigits rest with
    | some n => some ([c], n)
    | none =>
      match matchCTail rest with
      | some (cs, n) => some (c :: cs, n)
      | none => none

/-- Pattern `\s{2,}(.+?)\s{2,}(\d+)$` trying the greedy run length `k` first,
then backtracking down to 2. -/
def sepTry (s : List Char) : Nat → Option (List Char × Nat)
  | 0 => none
  | k + 1 =>
    if k + 1 < 2 then none
    else
      match matchCTail (s.drop (k + 1)) with
      | some cn => some cn
      | none => sepTry s k

def matchSep2C (s : List Char) : Option (List Char × Nat) := sepTry s (wsRun s)

/-- Pattern `(.+?)\s{2,}(.+?)\s{2,}(\d+)$` with a lazy first group. -/
def matchBody : List Char → Option (List Char × List Char × Nat)
  | [] => none
  | c :: rest =>
    match matchSep2C rest with
    | some (cs, n) => some ([c], cs, n)
    | none =>
      match matchBody rest with
      | some (b, cs, n) => some (c :: b, cs, n)
      | none => none

/-- One parsed row of the location table. -/
structure LocRow where
  iso : List Char
  country : List Char
  city : List Char
  ping : Nat
deriving DecidableEq

/-- Pattern `\s+` trying the greedy run length first, then down to 1;
`m.group(2)`/`m.group(3)` are stripped as in the code. -/
def wsTry (g1 rest : List Char) : Nat → Option LocRow
  | 0 => none
  | k + 1 =>
    match matchBody (rest.drop (k + 1)) with
    | some (b, cs, n) => some ⟨g1, trimC b, trimC cs, n⟩
    | none => wsTry g1 rest k

/-- Python `re.match(r"^(\S+)\s+(.+?)\s{2,}(.+?)\s{2,}(\d+)$", ln)` plus the
row construction `(m.group(1), m.group(2).strip(), m.group(3).strip(),
int(m.group(4)))`. -/
def matchRow (ln : List Char) : Option LocRow :=
  let g1 := ln.takeWhile fun c => !isSpace c
  if g1 = [] then none
  else
    let rest := ln.drop g1.length
    wsTry g1 rest (wsRun rest)

/-- The scan loop of `parse_locations`: lines starting with `"ISO"` set
the `started` flag and are skipped, everything before the flag is
skipped, a line starting with `"You can connect"` stops the scan, and
every other line is matched against the row pattern. -/
def locLoop : List (List Char) → Bool → List LocRow
  | [], _ => []
  | ln :: rest, started =>
    if pfx (str "ISO") ln then locLoop rest true
    else if !started then locLoop rest false
    else if pfx (str "You can connect") ln then []
    else
      match matchRow ln with
      | some row => row :: locLoop rest started
      | none => locLoop rest started

/-- The line normalization of `parse_locations`:
`[ln.rstrip() for ln in text.splitlines() if ln.strip()]`. -/
def locLines (text : List Char) : List (List Char) :=
  ((splitlines text).filter fun ln => trimC ln ≠ []).map trimRightC

/-- Function `cli.parse_locations`. -/
def parse_locations (text : List Char) : List LocRow :=
  locLoop (locLines text) false

/-! ## Config parser and boolean helper (`main.parse_config`, `main.bool_on`) -/

/-- Python-dict assignment `d[k] = v`: replace the (unique) existing
binding in place, else append; lookup order is irrelevant, insertion
order is preserved as in a CPython dict. -/
def dset : List (List Char × List Char) → List Char → List Char →
    List (List Char × List Char)
  | [], k, v => [(k, v)]
  | p :: rest, k, v => if p.1 = k then (k, v) :: rest else p :: dset rest k v

/-- Dict lookup `d.get(k)`. -/
def dget : List (List Char × List Char) → List Char → Option (List Char)
  | [], _ => none
  | p :: rest, k => if p.1 = k then some p.2 else dget rest k

/-- One step of the `parse_config` loop. -/
def configStep (d : List (List Char × List Char)) (ln : List Char) :
    List (List Char × List Char) :=
  let l := trimC ln
  if l = [] then d
  else if pfx (str "Current configuration") l then d
  else
    match splitFirst (str ":") l with
    | some (k, v) => dset d (lowerS (trimC k)) (trimC v)
    | none => d

/-- Function `main.parse_config`. -/
def parse_config (text : List Char) : List (List Char × List Char) :=
  (splitlines text).foldl configStep []

/-- Function `main.bool_on`. -/
def bool_on (v : List Char) : Bool :=
  let s := lowerS (trimC v)
  s == str "on" || s == str "true" || s == str "yes" || s == str "enabled"

/-! ## Process runner (`cli._clean_output`, `cli.run`) -/

def isCSIParam (c : Char) : Bool := 0x30 ≤ c.toNat && c.toNat ≤ 0x3F
def isCSIInter (c : Char) : Bool := 0x20 ≤ c.toNat && c.toNat ≤ 0x2F
def isCSIFinal (c : Char) : Bool := 0x40 ≤ c.toNat && c.toNat ≤ 0x7E

/-- After `ESC [`, consume the parameter bytes (0x30-0x3F), the
intermediate bytes (0x20-0x2F) and one final byte (0x40-0x7E) of a CSI
sequence (maximal-munch; no backtracking can help since the three
ranges are disjoint). -/
def ansiConsume (s : List Char) : Option (List Char) :=
  let s1 := s.dropWhile isCSIParam
  let s2 := s1.dropWhile isCSIInter
  match s2 with
  | c :: rest => if isCSIFinal c then some rest else none
  | [] => none

/-- Substitution `_ANSI_RE.sub` on the whole string: remove every CSI escape sequence.  Each step
consumes at least one character, so `s.length` steps of fuel are exact. -/
def ansiStripF : Nat → List Char → List Char
  | 0, s => s
  | fuel + 1, s =>
    match s with
    | [] => []
    | '\x1b' :: '[' :: rest =>
      (match ansiConsume rest with
       | some rem => ansiStripF fuel rem
       | none => '\x1b' :: ansiStripF fuel ('[' :: rest))
    | c :: rest => c :: ansiStripF fuel rest

def ansiStrip (s : List Char) : List Char := ansiStripF s.length s

/-- Function `cli._clean_output`: strip ANSI sequences, drop control characters
other than newline and tab, and strip outer whitespace. -/
def clean_output (s : List Char) : List Char :=
  if s = [] then []
  else trimC ((ansiStrip s).filter fun c => c = '\n' || c = '\t' || 32 ≤ c.toNat)

/-- Decimal digits of a natural number, as Python's `str` renders it.
Each division by ten strictly shrinks the number, so `n` steps of fuel
are enough. -/
def natCharsF : Nat → Nat → List Char
  | 0, n => [Char.ofNat (48 + n % 10)]
  | fuel + 1, n =>
    if n < 10 then [Char.ofNat (48 + n)]
    else natCharsF fuel (n / 10) ++ [Char.ofNat (48 + n % 10)]

def natChars (n : Nat) : List Char := natCharsF n n

/-- Python `f"{i}"` for an `int`. -/
def intChars (i : Int) : List Char :=
  if i < 0 then '-' :: natChars (-i).toNat else natChars i.toNat

instance : DecidableEq (Except (List Char) (List Char)) := fun a b =>
  match a, b with
  | .ok x, .ok y =>
    if h : x = y then isTrue (by rw [h]) else isFalse (by simp [h])
  | .error x, .error y =>
    if h : x = y then isTrue (by rw [h]) else isFalse (by simp [h])
  | .ok _, .error _ => isFalse (by simp)
  | .error _, .ok _ => isFalse (by simp)

/-- Python `a or b` on strings (empty is falsy). -/
def pyOrS (a b : List Char) : List Char := if a = [] then b else a

/-- Function `cli.run`, as a function of the completed process's exit code and
captured streams: on a non-zero exit it raises
`CliError(err or out or f"CLI error: {p.returncode}")`, else returns
the cleaned stdout. -/
def run_result (rc : Int) (stdout stderr : List Char) :
    Except (List Char) (List Char) :=
  let out := clean_output stdout
  let err := clean_output stderr
  if rc ≠ 0 then .error (pyOrS err (pyOrS out (str "CLI error: " ++ intChars rc)))
  else .ok out

/-! ## Command facade (`cli.status`, `cli.list_locations`, ...):
each operation is a fixed argument template passed to `run` (or its
sudo/pkexec variants) together with a timeout in seconds. -/

structure CliCmd where
  args : List (List Char)
  timeoutSec : Nat
deriving DecidableEq

def status_cmd : CliCmd := ⟨[str "status"], 15⟩

def list_locations_cmd (count : Option Nat) : CliCmd :=
  ⟨[str "list-locations"] ++ (match count with | none => [] | some n => [natChars n]), 60⟩

def connect_fastest_cmd : CliCmd := ⟨[str "connect", str "--fastest", str "-y"], 90⟩

def connect_location_cmd (loc : List Char) : CliCmd :=
  ⟨[str "connect", str "-l", loc, str "-y"], 90⟩

def connect_fastest_pw_cmd : CliCmd := ⟨[str "connect", str "--fastest", str "-y"], 120⟩

def connect_location_pw_cmd (loc : List Char) : CliCmd :=
  ⟨[str "connect", str "-l", loc, str "-y"], 120⟩

def disconnect_cmd : CliCmd := ⟨[str "disconnect"], 30⟩

def config_show_cmd : CliCmd := ⟨[str "config", str "show"], 30⟩

def exclusions_mode_get_cmd : CliCmd := ⟨[str "site-exclusions", str "mode"], 30⟩

def exclusions_show_cmd : CliCmd := ⟨[str "site-exclusions", str "show"], 30⟩

def export_logs_cmd (dir : List Char) : CliCmd :=
  ⟨[str "export-logs", str "-o", dir, str "-f"], 120⟩

/-! ## Refresh data flow (`main.App.refresh_all`,
`main.App._on_refresh_ok`, `main.App._on_refresh_err`)

`refresh_all` hands `run_bg` a single thunk that performs all six CLI
fetches in sequence and returns their tuple; `run_bg` routes the tuple
to `_on_refresh_ok` (which re-parses and re-renders every structure and
refreshes both text caches) or, if any fetch raised, routes the first
exception to `_on_refresh_err`, which only displays the error and
touches no cached structure. -/

structure RefreshData where
  status : VpnStatus
  fastRows : List LocRow
  allRows : List LocRow
  exclMode : List Char
  exclusions : List Char
  config : List (List Char × List Char)
  locationsTextCache : List Char
  lastFastText : List Char
deriving DecidableEq

def refresh_all_model (c : RefreshData)
    (st fast allLoc mode excl cfg : Except (List Char) (List Char)) :
    RefreshData :=
  match st, fast, allLoc, mode, excl, cfg with
  | .ok s, .ok f, .ok a, .ok m, .ok e, .ok g =>
    { status := parse_status s
      fastRows := parse_locations f
      allRows := parse_locations a
      exclMode := m
      exclusions := e
      config := parse_config g
      locationsTextCache := a
      lastFastText := f }
  | _, _, _, _, _, _ => c

def isOkE : Except (List Char) (List Char) → Bool
  | .ok _ => true
  | .error _ => false

/-! ## Lemmas about the string primitives -/

theorem pfx_nil (s : List Char) : pfx [] s = true := rfl

theorem pfx_cons (a b : Char) (as bs : List Char) :
    pfx (a :: as) (b :: bs) = (decide (a = b) && pfx as bs) := rfl

theorem pfx_append_self (p r : List Char) : pfx p (p ++ r) = true := by
  induction p with
  | nil => rfl
  | cons a as ih => simp [pfx_cons, ih]

theorem pfx_length_le {p s : List Char} (h : pfx p s = true) :
    p.length ≤ s.length := by
  induction p generalizing s with
  | nil => simp
  | cons a as ih =>
    cases s with
    | nil => simp [pfx] at h
    | cons b bs =>
      rw [pfx_cons, Bool.and_eq_true] at h
      simpa using ih h.2

theorem pfx_eq_take {p s : List Char} (h : pfx p s = true) :
    p = s.take p.length := by
  induction p generalizing s with
  | nil => rfl
  | cons a as ih =>
    cases s with
    | nil => simp [pfx] at h
    | cons b bs =>
      rw [pfx_cons, Bool.and_eq_true, decide_eq_true_eq] at h
      simpa [h.1] using ih h.2

theorem pfx_of_append_le {p u v : List Char} (h : pfx p (u ++ v) = true)
    (hl : p.length ≤ u.length) : pfx p u = true := by
  induction p generalizing u with
  | nil => rfl
  | cons a as ih =>
    cases u with
    | nil => simp at hl
    | cons b bs =>
      rw [List.cons_append, pfx_cons, Bool.and_eq_true] at h
      rw [pfx_cons, Bool.and_eq_true]
      exact ⟨h.1, ih h.2 (by simpa using hl)⟩

theorem pfx_append_right {p u : List Char} (v : List Char)
    (h : pfx p u = true) : pfx p (u ++ v) = true := by
  induction p generalizing u with
  | nil => rfl
  | cons a as ih =>
    cases u with
    | nil => simp [pfx] at h
    | cons b bs =>
      rw [pfx_cons, Bool.and_eq_true] at h
      rw [List.cons_append, pfx_cons, Bool.and_eq_true]
      exact ⟨h.1, ih h.2⟩

theorem pfx_split_of_le {p u v : List Char} (h : pfx p (u ++ v) = true)
    (hl : u.length ≤ p.length) :
    pfx u p = true ∧ pfx (p.drop u.length) v = true := by
  induction u generalizing p with
  | nil => exact ⟨rfl, h⟩
  | cons b bs ih =>
    cases p with
    | nil => simp at hl
    | cons a as =>
      rw [List.cons_append, pfx_cons, Bool.and_eq_true, decide_eq_true_eq] at h
      have hrec := ih h.2 (by simpa using hl)
      refine ⟨?_, by simpa using hrec.2⟩
      rw [pfx_cons, Bool.and_eq_true, decide_eq_true_eq]
      exact ⟨h.1.symm, hrec.1⟩

theorem containsSub_nil_eq (p : List Char) : containsSub p [] = pfx p [] := rfl

theorem containsSub_cons_eq (p : List Char) (c : Char) (cs : List Char) :
    containsSub p (c :: cs) = (pfx p (c :: cs) || containsSub p cs) := rfl

theorem containsSub_iff (p s : List Char) :
    containsSub p s = true ↔ ∃ a b, s = a ++ b ∧ pfx p b = true := by
  induction s with
  | nil =>
    rw [containsSub_nil_eq]
    constructor
    · intro h; exact ⟨[], [], rfl, h⟩
    · rintro ⟨a, b, hab, hp⟩
      rcases List.append_eq_nil.mp hab.symm with ⟨_, hb⟩
      rw [hb] at hp; exact hp
  | cons c cs ih =>
    rw [containsSub_cons_eq]
    constructor
    · intro h
      rcases Bool.or_eq_true .. |>.mp h with h1 | h2
      · exact ⟨[], c :: cs, rfl, h1⟩
      · rcases ih.mp h2 with ⟨a, b, hab, hp⟩
        exact ⟨c :: a, b, by rw [hab, List.cons_append], hp⟩
    · rintro ⟨a, b, hab, hp⟩
      cases a with
      | nil =>
        simp only [List.nil_append] at hab
        rw [← hab] at hp
        rw [hp, Bool.true_or]
      | cons a0 as =>
        rw [List.cons_append, List.cons.injEq] at hab
        have : containsSub p cs = true := ih.mpr ⟨as, b, hab.2, hp⟩
        rw [this, Bool.or_true]

theorem containsSub_of_parts {p s a b : List Char} (hab : s = a ++ b)
    (hp : pfx p b = true) : containsSub p s = true :=
  (containsSub_iff p s).mpr ⟨a, b, hab, hp⟩

theorem containsSub_append_self (p u v : List Char) :
    containsSub p (u ++ p ++ v) = true :=
  containsSub_of_parts (by rw [List.append_assoc]) (pfx_append_self p v)

theorem containsSub_sub_false {p u v : List Char}
    (h : containsSub p (u ++ v) = false) : containsSub p v = false := by
  cases hc : containsSub p v with
  | false => rfl
  | true =>
    rcases (containsSub_iff p v).mp hc with ⟨a, b, hab, hp⟩
    have : containsSub p (u ++ v) = true :=
      containsSub_of_parts (by rw [hab, List.append_assoc]) hp
    rw [this] at h; cases h

theorem containsSub_left_false {p u v : List Char}
    (h : containsSub p (u ++ v) = false) : containsSub p u = false := by
  cases hc : containsSub p u with
  | false => rfl
  | true =>
    rcases (containsSub_iff p u).mp hc with ⟨a, b, hab, hp⟩
    have : containsSub p (u ++ v) = true :=
      containsSub_of_parts (a := a) (b := b ++ v)
        (by rw [hab, List.append_assoc]) (pfx_append_right v hp)
    rw [this] at h; cases h

theorem splitFirst_nil_eq (sep : List Char) :
    splitFirst sep [] = if pfx sep [] = true then some ([], []) else none := rfl

theorem splitFirst_cons_eq (sep : List Char) (c : Char) (cs : List Char) :
    splitFirst sep (c :: cs) =
      if pfx sep (c :: cs) = true then some ([], (c :: cs).drop sep.length)
      else
        match splitFirst sep cs with
        | some (a, b) => some (c :: a, b)
        | none => none := rfl

theorem splitFirst_eq_none {sep s : List Char}
    (h : containsSub sep s = false) : splitFirst sep s = none := by
  induction s with
  | nil =>
    rw [containsSub_nil_eq] at h
    rw [splitFirst_nil_eq, if_neg (by simp [h])]
  | cons c cs ih =>
    rw [containsSub_cons_eq, Bool.or_eq_false_iff] at h
    rw [splitFirst_cons_eq, if_neg (by simp [h.1]), ih h.2]

theorem splitFirst_of_pfx {sep s : List Char} (hsep : sep ≠ [])
    (h : pfx sep s = true) : splitFirst sep s = some ([], s.drop sep.length) := by
  cases s with
  | nil =>
    cases sep with
    | nil => exact absurd rfl hsep
    | cons a as => simp [pfx] at h
  | cons c cs => rw [splitFirst_cons_eq, if_pos h]

theorem splitFirst_append {sep a b : List Char} (hsep : sep ≠ [])
    (H : ∀ a₁ a₂, a = a₁ ++ a₂ → a₂ ≠ [] → pfx sep (a₂ ++ sep ++ b) = false) :
    splitFirst sep (a ++ sep ++ b) = some (a, b) := by
  induction a with
  | nil =>
    rw [List.nil_append]
    rw [splitFirst_of_pfx hsep (pfx_append_self sep b)]
    rw [List.drop_left]
  | cons c cs ih =>
    have hnot : pfx sep ((c :: cs) ++ sep ++ b) = false := H [] (c :: cs) rfl (by simp)
    have hgoal : (c :: cs) ++ sep ++ b = c :: (cs ++ sep ++ b) := by
      simp [List.append_assoc]
    rw [hgoal, splitFirst_cons_eq,
      if_neg (by simp only [Bool.not_eq_true]
                 simpa [List.append_assoc] using hnot),
      ih (fun a₁ a₂ h12 hne => H (c :: a₁) a₂ (by rw [h12, List.cons_append]) hne)]

theorem pfx_head_eq {x y : Char} {xs ys : List Char}
    (h : pfx (x :: xs) (y :: ys) = true) : x = y := by
  rw [pfx_cons, Bool.and_eq_true, decide_eq_true_eq] at h
  exact h.1

theorem sfx_of_parts {p a a₁ : List Char} (hab : a = a₁ ++ p) : sfx p a = true := by
  rw [sfx, hab, List.reverse_append]
  exact pfx_append_self _ _

/-- Any occurrence of `sep` strictly before the marked one in
`a ++ sep ++ b` either lies inside `a` (so `a` contains `sep`) or
spans the boundary: then the tail `a₂` of `a` is a proper front of
`sep` and the rest of `sep` re-occurs at the marked position. -/
theorem early_occurrence {sep a b a₁ a₂ : List Char}
    (hcon : containsSub sep a = false) (hab : a = a₁ ++ a₂)
    (hp : pfx sep (a₂ ++ sep ++ b) = true) :
    a₂.length < sep.length ∧ a₂ = sep.take a₂.length ∧
      pfx (sep.drop a₂.length) (sep ++ b) = true := by
  have hp' : pfx sep (a₂ ++ (sep ++ b)) = true := by rwa [← List.append_assoc]
  by_cases hle : sep.length ≤ a₂.length
  · exfalso
    have hpa : pfx sep a₂ = true := pfx_of_append_le hp' hle
    have : containsSub sep a = true := containsSub_of_parts hab hpa
    rw [this] at hcon; cases hcon
  · have hlt : a₂.length < sep.length := by omega
    obtain ⟨hpa, hcont⟩ := pfx_split_of_le hp' (Nat.le_of_lt hlt)
    exact ⟨hlt, pfx_eq_take hpa, hcont⟩

/-- No occurrence of `" in "` before the marked one in `a ++ " in " ++ b`
when `a` neither contains `" in "` nor ends in `" in"` (the only
boundary span whose continuation survives: the final space of the
separator restarts it). -/
theorem no_early_in {a b : List Char} (h1 : containsSub (str " in ") a = false)
    (h2 : sfx (str " in") a = false) :
    ∀ a₁ a₂, a = a₁ ++ a₂ → a₂ ≠ [] → pfx (str " in ") (a₂ ++ str " in " ++ b) = false := by
  intro a₁ a₂ hab hne
  cases hp : pfx (str " in ") (a₂ ++ str " in " ++ b) with
  | false => rfl
  | true =>
    exfalso
    obtain ⟨hlt, ha2, hcont⟩ := early_occurrence h1 hab hp
    rw [show (str " in ").length = 4 from rfl] at hlt
    have hge : 0 < a₂.length := List.length_pos.mpr hne
    rcases (by omega : a₂.length = 1 ∨ a₂.length = 2 ∨ a₂.length = 3) with h | h | h
    · rw [h] at hcont
      exact absurd (pfx_head_eq hcont) (by decide)
    · rw [h] at hcont
      exact absurd (pfx_head_eq hcont) (by decide)
    · rw [h] at ha2
      have hsfx : sfx (str " in") a = true := sfx_of_parts (by rw [hab, ha2]; rfl)
      rw [hsfx] at h2; cases h2

/-- No occurrence of `" mode"` before the marked one in
`a ++ " mode" ++ b` when `a` does not contain `" mode"`: no boundary
span continues, since no proper tail of the separator starts with its
own first character. -/
theorem no_early_mode {a b : List Char} (h1 : containsSub (str " mode") a = false) :
    ∀ a₁ a₂, a = a₁ ++ a₂ → a₂ ≠ [] → pfx (str " mode") (a₂ ++ str " mode" ++ b) = false := by
  intro a₁ a₂ hab hne
  cases hp : pfx (str " mode") (a₂ ++ str " mode" ++ b) with
  | false => rfl
  | true =>
    exfalso
    obtain ⟨hlt, _, hcont⟩ := early_occurrence h1 hab hp
    rw [show (str " mode").length = 5 from rfl] at hlt
    have hge : 0 < a₂.length := List.length_pos.mpr hne
    rcases (by omega : a₂.length = 1 ∨ a₂.length = 2 ∨ a₂.length = 3 ∨ a₂.length = 4)
      with h | h | h | h <;>
      (rw [h] at hcont; exact absurd (pfx_head_eq hcont) (by decide))

/-- No occurrence of `"running on "` before the marked one in
`a ++ "running on " ++ b` when `a` does not contain `"running on "`:
no proper tail of the separator starts with `r`, so no boundary span
continues. -/
theorem no_early_running {a b : List Char}
    (h1 : containsSub (str "running on ") a = false) :
    ∀ a₁ a₂, a = a₁ ++ a₂ → a₂ ≠ [] →
      pfx (str "running on ") (a₂ ++ str "running on " ++ b) = false := by
  intro a₁ a₂ hab hne
  cases hp : pfx (str "running on ") (a₂ ++ str "running on " ++ b) with
  | false => rfl
  | true =>
    exfalso
    obtain ⟨hlt, _, hcont⟩ := early_occurrence h1 hab hp
    rw [show (str "running on ").length = 11 from rfl] at hlt
    have hge : 0 < a₂.length := List.length_pos.mpr hne
    rcases (by omega : a₂.length = 1 ∨ a₂.length = 2 ∨ a₂.length = 3 ∨ a₂.length = 4 ∨
        a₂.length = 5 ∨ a₂.length = 6 ∨ a₂.length = 7 ∨ a₂.length = 8 ∨
        a₂.length = 9 ∨ a₂.length = 10)
      with h | h | h | h | h | h | h | h | h | h <;>
      (rw [h] at hcont; exact absurd (pfx_head_eq hcont) (by decide))

/-! ## Lemmas about trimming -/

theorem head_dropWhile_false (p : α → Bool) (l : List α) :
    ∀ c, (l.dropWhile p).head? = some c → p c = false := by
  induction l with
  | nil => intro c hc; cases hc
  | cons a l ih =>
    intro c hc
    by_cases hpa : p a = true
    · rw [List.dropWhile_cons_of_pos hpa] at hc
      exact ih c hc
    · rw [List.dropWhile_cons_of_neg hpa] at hc
      cases hc
      simpa using hpa

theorem trimLeftC_eq_self {s : List Char}
    (h : ∀ c, s.head? = some c → isSpace c = false) : trimLeftC s = s := by
  cases s with
  | nil => rfl
  | cons c cs =>
    exact List.dropWhile_cons_of_neg (by simp [h c rfl])

theorem trimRightC_eq_self {s : List Char}
    (h : ∀ c, s.getLast? = some c → isSpace c = false) : trimRightC s = s := by
  rw [trimRightC]
  cases hr : s.reverse with
  | nil =>
    have hs : s = [] := by
      have := congrArg List.reverse hr
      simpa using this
    rw [hs]; rfl
  | cons d w =>
    have hd : s.getLast? = some d := by
      rw [← List.head?_reverse, hr]; rfl
    rw [List.dropWhile_cons_of_neg (by simp [h d hd]), ← hr, List.reverse_reverse]

theorem trimC_eq_self {s : List Char}
    (h1 : ∀ c, s.head? = some c → isSpace c = false)
    (h2 : ∀ c, s.getLast? = some c → isSpace c = false) : trimC s = s := by
  rw [trimC, trimLeftC_eq_self h1, trimRightC_eq_self h2]

theorem trimRightC_pfx_self (s : List Char) : trimRightC s <+: s := by
  have h1 : List.dropWhile isSpace s.reverse <:+ s.reverse := List.dropWhile_suffix _
  have h2 : (trimRightC s).reverse <:+ s.reverse := by
    rw [trimRightC, List.reverse_reverse]; exact h1
  exact List.reverse_suffix.mp h2

theorem head?_of_pfx_ne_nil {u w : List α} (h : u <+: w) (hne : u ≠ []) :
    w.head? = u.head? := by
  obtain ⟨t, ht⟩ := h
  cases u with
  | nil => exact absurd rfl hne
  | cons a as => rw [← ht]; rfl

theorem trimC_head_nonspace (s : List Char) :
    ∀ c, (trimC s).head? = some c → isSpace c = false := by
  intro c hc
  have hne : trimC s ≠ [] := by
    intro h0; rw [h0] at hc; cases hc
  have hpre : trimC s <+: trimLeftC s := trimRightC_pfx_self (trimLeftC s)
  have hhead : (trimLeftC s).head? = some c := by
    rw [head?_of_pfx_ne_nil hpre hne]; exact hc
  exact head_dropWhile_false isSpace s c hhead

theorem trimC_getLast_nonspace (s : List Char) :
    ∀ c, (trimC s).getLast? = some c → isSpace c = false := by
  intro c hc
  rw [trimC, trimRightC, ← List.head?_reverse, List.reverse_reverse] at hc
  exact head_dropWhile_false isSpace (trimLeftC s).reverse c hc

theorem trimC_idem (s : List Char) : trimC (trimC s) = trimC s :=
  trimC_eq_self (trimC_head_nonspace s) (trimC_getLast_nonspace s)

theorem head_nonspace_of_trimmed {Z : List Char} (h : trimC Z = Z) :
    ∀ c, Z.head? = some c → isSpace c = false := by
  intro c hc
  exact trimC_head_nonspace Z c (by rw [h]; exact hc)

theorem getLast_nonspace_of_trimmed {Z : List Char} (h : trimC Z = Z) :
    ∀ c, Z.getLast? = some c → isSpace c = false := by
  intro c hc
  exact trimC_getLast_nonspace Z c (by rw [h]; exact hc)

/-- Trimming fixes a string that starts with a non-space character and
ends with a trimmed non-empty block. -/
theorem trimC_construct {c₀ : Char} {mid Z : List Char} (hc : isSpace c₀ = false)
    (hZt : trimC Z = Z) (hZne : Z ≠ []) :
    trimC (c₀ :: (mid ++ Z)) = c₀ :: (mid ++ Z) := by
  apply trimC_eq_self
  · intro c hc'
    cases hc'
    exact hc
  · intro d hd
    rw [show (c₀ :: (mid ++ Z)) = (c₀ :: mid) ++ Z from rfl,
      List.getLast?_append_of_ne_nil _ hZne] at hd
    exact getLast_nonspace_of_trimmed hZt d hd

theorem exists_append_dropWhile (p : α → Bool) (l : List α) :
    ∃ u, l = u ++ l.dropWhile p := by
  induction l with
  | nil => exact ⟨[], rfl⟩
  | cons a l ih =>
    by_cases hpa : p a = true
    · obtain ⟨u, hu⟩ := ih
      exact ⟨a :: u, by rw [List.dropWhile_cons_of_pos hpa, List.cons_append, ← hu]⟩
    · exact ⟨[], by rw [List.dropWhile_cons_of_neg hpa]; rfl⟩

theorem trimC_parts (s : List Char) : ∃ u v, s = u ++ (trimC s ++ v) := by
  obtain ⟨u, hu⟩ := exists_append_dropWhile isSpace s
  obtain ⟨v, hv⟩ := trimRightC_pfx_self (trimLeftC s)
  exact ⟨u, v, by rw [show trimC s ++ v = trimLeftC s from hv]; exact hu⟩

theorem contains_lower_of_pfx_trim {p t : List Char}
    (h : pfx p (lowerS (trimC t)) = true) : containsSub p (lowerS t) = true := by
  obtain ⟨u, v, huv⟩ := trimC_parts t
  have heq : lowerS t = lowerS u ++ (lowerS (trimC t) ++ lowerS v) := by
    conv_lhs => rw [huv]
    simp only [lowerS, List.map_append]
  exact containsSub_of_parts heq (pfx_append_right _ h)

theorem contains_lower_of_contains_trim {p t : List Char}
    (h : containsSub p (lowerS (trimC t)) = true) :
    containsSub p (lowerS t) = true := by
  obtain ⟨u, v, huv⟩ := trimC_parts t
  obtain ⟨a, b, hab, hp⟩ := (containsSub_iff p (lowerS (trimC t))).mp h
  simp only [lowerS] at hab
  have heq : lowerS t = (lowerS u ++ a) ++ (b ++ lowerS v) := by
    conv_lhs => rw [huv]
    simp only [lowerS, List.map_append]
    rw [hab]
    simp [List.append_assoc]
  exact containsSub_of_parts heq (pfx_append_right _ hp)

/-! ## Branch lemmas for `parse_status` -/

theorem parse_status_default {t : List Char}
    (h : pfx (str "connected to") (lowerS (trimC t)) = false) :
    parse_status t = ⟨false, [], [], []⟩ := by
  simp only [parse_status]
  by_cases h0 : trimC t = []
  · rw [if_pos h0]
  · rw [if_neg h0, if_neg (by simp [h])]
    split <;> rfl

theorem parse_status_connected_true {t : List Char}
    (hb : pfx (str "connected to") (lowerS (trimC t)) = true) :
    (parse_status t).connected = true := by
  simp only [parse_status]
  have hne : trimC t ≠ [] := by
    intro h0
    rw [h0] at hb
    exact absurd hb (by decide)
  rw [if_neg hne, if_pos hb]

theorem parse_status_of_connected {t : List Char} (htt : trimC t = t)
    (hne : t ≠ []) (hpfx : pfx (str "connected to") (lowerS t) = true) :
    parse_status t =
      ⟨true,
        (match splitFirst (str "Connected to ") t with
         | some (_, r) => trimC (splitPart0 (str " in ") r)
         | none => []),
        (match splitFirst (str " in ") t with
         | some (_, r) => upperS (trimC (splitPart0 (str " mode") r))
         | none => []),
        (if containsSub (str "running on ") t then
           match splitFirst (str "running on ") t with
           | some (_, r) => trimC r
           | none => []
         else [])⟩ := by
  simp only [parse_status]
  rw [htt, if_neg hne, if_pos hpfx]

/-- Claim C1: fail-closed status parsing.  Any text lacking both
`"connected to"` (case-insensitively) and `"disconnected"` parses to
the disconnected value with all fields empty, and whenever the parsed
status has `connected = false` all three other fields are empty. -/
theorem c1_fail_closed :
    (∀ t : List Char, containsSub (str "connected to") (lowerS t) = false →
        containsSub (str "disconnected") (lowerS t) = false →
        parse_status t = ⟨false, [], [], []⟩) ∧
    (∀ t : List Char, (parse_status t).connected = false →
        parse_status t = ⟨false, [], [], []⟩) := by
  constructor
  · intro t h1 _
    apply parse_status_default
    cases hb : pfx (str "connected to") (lowerS (trimC t)) with
    | false => rfl
    | true =>
      have := contains_lower_of_pfx_trim hb
      rw [this] at h1; cases h1
  · intro t hconn
    cases hb : pfx (str "connected to") (lowerS (trimC t)) with
    | false => exact parse_status_default hb
    | true =>
      have := parse_status_connected_true hb
      rw [this] at hconn; cases hconn

/-- Witness for C1 at a concrete garbage input. -/
theorem c1_witness : parse_status (str "some random CLI noise") = ⟨false, [], [], []⟩ :=
  c1_fail_closed.1 (str "some random CLI noise") (by decide) (by decide)

/-! ## Claim C2: totality and default values of the three parsers -/

theorem locLoop_cons_eq (ln : List Char) (rest : List (List Char)) (started : Bool) :
    locLoop (ln :: rest) started =
      if pfx (str "ISO") ln = true then locLoop rest true
      else if !started then locLoop rest false
      else if pfx (str "You can connect") ln = true then []
      else
        match matchRow ln with
        | some row => row :: locLoop rest started
        | none => locLoop rest started := rfl

theorem locLoop_no_start {ls : List (List Char)}
    (h : ∀ ln ∈ ls, pfx (str "ISO") ln = false) : locLoop ls false = [] := by
  induction ls with
  | nil => rfl
  | cons ln rest ih =>
    rw [locLoop_cons_eq, if_neg (by simp [h ln (by simp)]),
      if_pos (by decide)]
    exact ih fun l hl => h l (by simp [hl])

theorem configStep_nil_eq {ln : List Char}
    (h : containsSub (str ":") (trimC ln) = false) : configStep [] ln = [] := by
  rw [configStep]
  by_cases h0 : trimC ln = []
  · rw [if_pos h0]
  · rw [if_neg h0]
    by_cases h1 : pfx (str "Current configuration") (trimC ln) = true
    · rw [if_pos h1]
    · rw [if_neg h1, splitFirst_eq_none h]

/-- Claim C2: parser totality and graceful degradation.  Each parser is
a total function; on input without the recognizable markers it returns
the disconnected status, the empty row list, or the empty map, and in
particular it does so on the empty string. -/
theorem c2_parser_totality :
    (∀ t : List Char, containsSub (str "connected to") (lowerS t) = false →
        parse_status t = ⟨false, [], [], []⟩) ∧
    (∀ t : List Char, (∀ ln ∈ splitlines t, pfx (str "ISO") (trimRightC ln) = false) →
        parse_locations t = []) ∧
    (∀ t : List Char, (∀ ln ∈ splitlines t, containsSub (str ":") (trimC ln) = false) →
        parse_config t = []) ∧
    parse_status [] = ⟨false, [], [], []⟩ ∧ parse_locations [] = [] ∧
    parse_config [] = [] := by
  refine ⟨?_, ?_, ?_, by decide, by decide, by decide⟩
  · intro t h1
    apply parse_status_default
    cases hb : pfx (str "connected to") (lowerS (trimC t)) with
    | false => rfl
    | true =>
      have := contains_lower_of_pfx_trim hb
      rw [this] at h1; cases h1
  · intro t h
    apply locLoop_no_start
    intro ln hln
    rw [locLines] at hln
    obtain ⟨ln0, hmem, hmap⟩ := List.mem_map.mp hln
    have := List.mem_filter.mp hmem
    rw [← hmap]
    exact h ln0 this.1
  · intro t h
    rw [parse_config]
    have : ∀ ls : List (List Char), (∀ ln ∈ ls, containsSub (str ":") (trimC ln) = false) →
        List.foldl configStep [] ls = [] := by
      intro ls
      induction ls with
      | nil => intro _; rfl
      | cons ln rest ih =>
        intro hls
        rw [List.foldl_cons, configStep_nil_eq (hls ln (by simp))]
        exact ih fun l hl => hls l (by simp [hl])
    exact this _ (fun ln hln => h ln hln)

/-- Witness for C2 at concrete garbage inputs. -/
theorem c2_witness :
    parse_status (str "?!*% garbage") = ⟨false, [], [], []⟩ ∧
    parse_locations (str "?!*% garbage") = [] ∧
    parse_config (str "?!*% garbage") = [] :=
  ⟨c2_parser_totality.1 (str "?!*% garbage") (by decide),
   c2_parser_totality.2.1 (str "?!*% garbage") (by decide),
   c2_parser_totality.2.2.1 (str "?!*% garbage") (by decide)⟩

/-! ## The connected-status template

`parse_status` on text of the shape
`C ++ X ++ " in " ++ Y ++ " mode" ++ M ++ "running on " ++ Z` where `C`
is some casing of `"connected to "`. -/

theorem nonspace_of_toLower_c {c : Char} (h : Char.toLower c = 'c') :
    isSpace c = false := by
  cases hsp : isSpace c with
  | false => rfl
  | true =>
    exfalso
    rw [isSpace] at hsp
    rcases Bool.or_eq_true .. |>.mp hsp with h5 | h6
    rcases Bool.or_eq_true .. |>.mp h5 with h4 | h6'
    rotate_left
    · rw [decide_eq_true_eq.mp h6'] at h; exact absurd h (by decide)
    · rw [decide_eq_true_eq.mp h6] at h; exact absurd h (by decide)
    rcases Bool.or_eq_true .. |>.mp h4 with h3 | h6'
    rotate_left
    · rw [decide_eq_true_eq.mp h6'] at h; exact absurd h (by decide)
    rcases Bool.or_eq_true .. |>.mp h3 with h2 | h6'
    rotate_left
    · rw [decide_eq_true_eq.mp h6'] at h; exact absurd h (by decide)
    rcases Bool.or_eq_true .. |>.mp h2 with h1 | h6'
    · rw [decide_eq_true_eq.mp h1] at h; exact absurd h (by decide)
    · rw [decide_eq_true_eq.mp h6'] at h; exact absurd h (by decide)

theorem sfx_append_of {p v : List Char} (u : List Char)
    (h : sfx p v = true) : sfx p (u ++ v) = true := by
  rw [sfx, List.reverse_append]
  rw [sfx] at h
  obtain ⟨a, b, hab, hp⟩ := (containsSub_iff p.reverse v.reverse).mp
    (containsSub_of_parts (a := ([] : List Char)) rfl h)
  exact pfx_append_right _ h

theorem sfx_sub_false {p u v : List Char}
    (h : sfx p (u ++ v) = false) : sfx p v = false := by
  cases hs : sfx p v with
  | false => rfl
  | true => rw [sfx_append_of u hs] at h; cases h

theorem parse_status_template (C X Y M Z : List Char)
    (hC : lowerS C = str "connected to ")
    (h1 : containsSub (str " in ") (C ++ X) = false)
    (h2 : sfx (str " in") (C ++ X) = false)
    (h3 : containsSub (str " mode") Y = false)
    (h4 : containsSub (str "running on ")
        (C ++ (X ++ (str " in " ++ (Y ++ (str " mode" ++ M))))) = false)
    (htY : trimC Y = Y) (htZ : trimC Z = Z) (hZne : Z ≠ []) :
    parse_status
        (C ++ (X ++ (str " in " ++ (Y ++ (str " mode" ++ (M ++ (str "running on " ++ Z))))))) =
      ⟨true,
        (match splitFirst (str "Connected to ")
            (C ++ (X ++ (str " in " ++ (Y ++ (str " mode" ++ (M ++ (str "running on " ++ Z))))))) with
         | some (_, r) => trimC (splitPart0 (str " in ") r)
         | none => []),
        upperS Y, Z⟩ := by
  set t := C ++ (X ++ (str " in " ++ (Y ++ (str " mode" ++ (M ++ (str "running on " ++ Z))))))
    with ht
  -- `C` is non-empty and starts with a non-space character.
  have hClen : C.length = 13 := by
    have := congrArg List.length hC
    simpa [lowerS] using this
  obtain ⟨c₀, C', hC0⟩ : ∃ c₀ C', C = c₀ :: C' := by
    cases C with
    | nil => simp at hClen
    | cons a as => exact ⟨a, as, rfl⟩
  have hc0low : Char.toLower c₀ = 'c' := by
    rw [hC0] at hC
    have hcons : Char.toLower c₀ :: lowerS C' = str "connected to " := hC
    have h' := congrArg List.head? hcons
    rw [show (str "connected to ").head? = some 'c' from rfl] at h'
    simpa using h'
  have hc0 : isSpace c₀ = false := nonspace_of_toLower_c hc0low
  -- the whole text is already trimmed
  have htt : trimC t = t := by
    have hshape : t = c₀ :: ((C' ++ (X ++ (str " in " ++ (Y ++
        (str " mode" ++ (M ++ str "running on ")))))) ++ Z) := by
      rw [ht, hC0]
      simp [List.append_assoc]
    rw [hshape]
    exact trimC_construct hc0 htZ hZne
  have hne : t ≠ [] := by
    rw [ht, hC0]
    simp
  -- the lower-cased text starts with the marker
  have hpfx : pfx (str "connected to") (lowerS t) = true := by
    have : lowerS t = str "connected to " ++ lowerS
        (X ++ (str " in " ++ (Y ++ (str " mode" ++ (M ++ (str "running on " ++ Z)))))) := by
      rw [ht]
      simp only [lowerS, List.map_append]
      rw [show List.map Char.toLower C = str "connected to " from hC]
    rw [this]
    exact pfx_append_right _ (by decide)
  rw [parse_status_of_connected htt hne hpfx]
  -- the first occurrence of " in " is the one between X and Y
  have hin : splitFirst (str " in ") t = some (C ++ X,
      Y ++ (str " mode" ++ (M ++ (str "running on " ++ Z)))) := by
    have := splitFirst_append (a := C ++ X)
      (b := Y ++ (str " mode" ++ (M ++ (str "running on " ++ Z))))
      (by decide) (no_early_in h1 h2)
    rw [show (C ++ X) ++ str " in " ++ (Y ++ (str " mode" ++ (M ++ (str "running on " ++ Z)))) = t
      from by rw [ht]; simp [List.append_assoc]] at this
    exact this
  -- the first occurrence of " mode" after that is the one after Y
  have hmode : splitFirst (str " mode")
      (Y ++ (str " mode" ++ (M ++ (str "running on " ++ Z)))) =
      some (Y, M ++ (str "running on " ++ Z)) := by
    have := splitFirst_append (a := Y)
      (b := M ++ (str "running on " ++ Z)) (by decide) (no_early_mode h3)
    rw [show Y ++ str " mode" ++ (M ++ (str "running on " ++ Z)) =
      Y ++ (str " mode" ++ (M ++ (str "running on " ++ Z))) from by simp [List.append_assoc]] at this
    exact this
  -- the first occurrence of "running on " is the marked one
  have hrunsome : splitFirst (str "running on ") t =
      some (C ++ (X ++ (str " in " ++ (Y ++ (str " mode" ++ M)))), Z) := by
    have := splitFirst_append
      (a := C ++ (X ++ (str " in " ++ (Y ++ (str " mode" ++ M))))) (b := Z)
      (by decide) (no_early_running h4)
    rw [show (C ++ (X ++ (str " in " ++ (Y ++ (str " mode" ++ M))))) ++ str "running on " ++ Z = t
      from by rw [ht]; simp [List.append_assoc]] at this
    exact this
  have hruncon : containsSub (str "running on ") t = true := by
    have := containsSub_append_self (str "running on ")
      (C ++ (X ++ (str " in " ++ (Y ++ (str " mode" ++ M))))) Z
    rw [show (C ++ (X ++ (str " in " ++ (Y ++ (str " mode" ++ M))))) ++ str "running on " ++ Z = t
      from by rw [ht]; simp [List.append_assoc]] at this
    exact this
  have hmodefield : (match splitFirst (str " in ") t with
      | some (_, r) => upperS (trimC (splitPart0 (str " mode") r))
      | none => []) = upperS Y := by
    rw [hin]
    show upperS (trimC (splitPart0 (str " mode")
      (Y ++ (str " mode" ++ (M ++ (str "running on " ++ Z)))))) = upperS Y
    simp only [splitPart0]
    rw [hmode, htY]
  have hifacefield : (if containsSub (str "running on ") t = true then
      match splitFirst (str "running on ") t with
      | some (_, r) => trimC r
      | none => []
    else []) = Z := by
    rw [if_pos hruncon, hrunsome]
    exact htZ
  rw [hmodefield, hifacefield]

/-- Claim C3 (amended): the `connected` flag is detected
case-insensitively, and on template text any casing of the
`"connected to "` prefix yields `connected = true` with mode
(upper-cased) and interface extracted — but the location is extracted
with the exact-cased marker `"Connected to "` and is left empty when
that exact casing is absent from the text. -/
theorem c3_case_insensitive_connected :
    (∀ t : List Char, pfx (str "connected to") (lowerS (trimC t)) = true →
        (parse_status t).connected = true) ∧
    (∀ C X Y M Z : List Char, lowerS C = str "connected to " →
        containsSub (str "Connected to ")
          (C ++ (X ++ (str " in " ++ (Y ++ (str " mode" ++ (M ++ (str "running on " ++ Z))))))) = false →
        containsSub (str " in ") (C ++ X) = false →
        sfx (str " in") (C ++ X) = false →
        containsSub (str " mode") Y = false →
        containsSub (str "running on ")
          (C ++ (X ++ (str " in " ++ (Y ++ (str " mode" ++ M))))) = false →
        trimC Y = Y → trimC Z = Z → Z ≠ [] →
        parse_status
            (C ++ (X ++ (str " in " ++ (Y ++ (str " mode" ++ (M ++ (str "running on " ++ Z))))))) =
          ⟨true, [], upperS Y, Z⟩) := by
  constructor
  · intro t h
    exact parse_status_connected_true h
  · intro C X Y M Z hC hnoexact h1 h2 h3 h4 htY htZ hZne
    rw [parse_status_template C X Y M Z hC h1 h2 h3 h4 htY htZ hZne,
      splitFirst_eq_none hnoexact]

/-- Witness for C3 at concrete inputs: an upper-cased prefix is still
detected as connected, and with the non-exact casing the location
comes out empty while mode and interface are still extracted. -/
theorem c3_witness :
    (parse_status (str "connected to somewhere")).connected = true ∧
    parse_status (str "CONNECTED TO " ++ (str "Paris" ++ (str " in " ++
        (str "tun" ++ (str " mode" ++ (str ", " ++ (str "running on " ++ str "tun0"))))))) =
      ⟨true, [], upperS (str "tun"), str "tun0"⟩ :=
  ⟨c3_case_insensitive_connected.1 (str "connected to somewhere") (by decide),
   c3_case_insensitive_connected.2 (str "CONNECTED TO ") (str "Paris") (str "tun")
     (str ", ") (str "tun0") (by decide) (by decide) (by decide) (by decide)
     (by decide) (by decide) (by decide) (by decide) (by decide)⟩

/-- Counterexample to C3 as stated: the stripped text lower-cases to a
string beginning with `"connected to"`, the text between that prefix
and the following `" in "` is `"Paris"`, yet the parsed location is
empty (the code splits on the exact-cased `"Connected to "`). -/
theorem c3_counterexample :
    pfx (str "connected to")
      (lowerS (trimC (str "CONNECTED TO Paris in tun mode, running on tun0"))) = true ∧
    parse_status (str "CONNECTED TO Paris in tun mode, running on tun0") =
      ⟨true, [], str "TUN", str "tun0"⟩ ∧
    (parse_status (str "CONNECTED TO Paris in tun mode, running on tun0")).location ≠
      str "Paris" := by decide

/-- Claim C4 (amended): exact-case extraction on template text
`"Connected to " ++ X ++ " in " ++ Y ++ " mode" ++ M ++ "running on " ++ Z`.
The hypotheses exclude the earlier occurrences of the markers that the
counterexample exhibits: `" in "` must not occur in
`"Connected to " ++ X` and must not restart at its end, `" mode"` must
not occur in `Y`, and `"running on "` must not occur before the marked
one; `X`, `Y`, `Z` are whitespace-trimmed and the interface is
non-empty. -/
theorem c4_exact_extraction (X Y M Z : List Char)
    (h1 : containsSub (str " in ") (str "Connected to " ++ X) = false)
    (h2 : sfx (str " in") (str "Connected to " ++ X) = false)
    (h3 : containsSub (str " mode") Y = false)
    (h4 : containsSub (str "running on ")
        (str "Connected to " ++ (X ++ (str " in " ++ (Y ++ (str " mode" ++ M))))) = false)
    (htX : trimC X = X) (htY : trimC Y = Y) (htZ : trimC Z = Z) (hZne : Z ≠ []) :
    parse_status
        (str "Connected to " ++ (X ++ (str " in " ++ (Y ++ (str " mode" ++ (M ++ (str "running on " ++ Z))))))) =
      ⟨true, X, upperS Y, Z⟩ := by
  rw [parse_status_template (str "Connected to ") X Y M Z (by decide) h1 h2 h3 h4
    htY htZ hZne]
  have hp0 : pfx (str "Connected to ")
      (str "Connected to " ++ (X ++ (str " in " ++ (Y ++ (str " mode" ++ (M ++ (str "running on " ++ Z))))))) = true :=
    pfx_append_self _ _
  rw [splitFirst_of_pfx (by decide) hp0, List.drop_left]
  have h1' : containsSub (str " in ") X = false := containsSub_sub_false h1
  have h2' : sfx (str " in") X = false := sfx_sub_false h2
  have hsp : splitFirst (str " in ")
      (X ++ (str " in " ++ (Y ++ (str " mode" ++ (M ++ (str "running on " ++ Z)))))) =
      some (X, Y ++ (str " mode" ++ (M ++ (str "running on " ++ Z)))) := by
    have := splitFirst_append (a := X)
      (b := Y ++ (str " mode" ++ (M ++ (str "running on " ++ Z))))
      (by decide) (no_early_in h1' h2')
    rw [show X ++ str " in " ++ (Y ++ (str " mode" ++ (M ++ (str "running on " ++ Z)))) =
      X ++ (str " in " ++ (Y ++ (str " mode" ++ (M ++ (str "running on " ++ Z)))))
      from by simp [List.append_assoc]] at this
    exact this
  have hloc : trimC (splitPart0 (str " in ")
      (X ++ (str " in " ++ (Y ++ (str " mode" ++ (M ++ (str "running on " ++ Z))))))) = X := by
    simp only [splitPart0]
    rw [hsp, htX]
  exact congrArg (fun l => VpnStatus.mk true l (upperS Y) Z) hloc

/-- Witness for C4: the spec's concrete scenario. -/
theorem c4_witness :
    parse_status (str "Connected to New York in TUN mode, running on tun0") =
      ⟨true, str "New York", str "TUN", str "tun0"⟩ := by
  have h := c4_exact_extraction (str "New York") (str "TUN") (str ", ") (str "tun0")
    (by decide) (by decide) (by decide) (by decide) (by decide) (by decide)
    (by decide) (by decide)
  rw [show str "Connected to New York in TUN mode, running on tun0" =
    str "Connected to " ++ (str "New York" ++ (str " in " ++ (str "TUN" ++
      (str " mode" ++ (str ", " ++ (str "running on " ++ str "tun0")))))) from by decide]
  rw [h]
  decide

/-- Counterexample to C4 as stated: with `X = "x in"`, `Y = "y"`,
`Z = "z"` — none of which contains `" in "`, `" mode"` or
`"running on"` — the text begins with `"Connected to X in Y mode"` and
contains `"running on Z"`, yet the parsed location is `"x"`, not `X`
(the first `" in "` of the text falls inside `X ++ " in "`). -/
theorem c4_counterexample :
    str "Connected to x in in y mode, running on z" =
      str "Connected to " ++ (str "x in" ++ (str " in " ++ (str "y" ++
        (str " mode" ++ (str ", " ++ (str "running on " ++ str "z")))))) ∧
    containsSub (str " in ") (str "x in") = false ∧
    containsSub (str " mode") (str "x in") = false ∧
    containsSub (str "running on") (str "x in") = false ∧
    containsSub (str " in ") (str "y") = false ∧
    containsSub (str " mode") (str "y") = false ∧
    containsSub (str "running on") (str "y") = false ∧
    containsSub (str " in ") (str "z") = false ∧
    containsSub (str " mode") (str "z") = false ∧
    containsSub (str "running on") (str "z") = false ∧
    (parse_status (str "Connected to x in in y mode, running on z")).location = str "x" ∧
    str "x" ≠ str "x in" := by decide

/-! ## Claim C5: the location-table span

A claim-side description, written from the claim's words: rows come
from the lines strictly after the first line beginning with `"ISO"`
and strictly before the next line beginning with `"You can connect"`
that match the 4-column pattern. -/

def dropToHeader : List (List Char) → Option (List (List Char))
  | [] => none
  | ln :: rest => if pfx (str "ISO") ln = true then some rest else dropToHeader rest

def takeToFooter (ls : List (List Char)) : List (List Char) :=
  ls.takeWhile fun ln => !pfx (str "You can connect") ln

/-- The rows of claim C5 exactly as stated. -/
def locRowsClaim (text : List Char) : List LocRow :=
  match dropToHeader (locLines text) with
  | none => []
  | some rest => (takeToFooter rest).filterMap matchRow

/-- The amended description: within the span, lines beginning with
`"ISO"` are additionally treated as header repeats and skipped. -/
def locRowsAmended (text : List Char) : List LocRow :=
  match dropToHeader (locLines text) with
  | none => []
  | some rest =>
    ((takeToFooter rest).filter fun ln => !pfx (str "ISO") ln).filterMap matchRow

theorem locLoop_false_eq (ls : List (List Char)) :
    locLoop ls false =
      match dropToHeader ls with
      | none => []
      | some rest => locLoop rest true := by
  induction ls with
  | nil => rfl
  | cons ln rest ih =>
    by_cases hISO : pfx (str "ISO") ln = true
    · rw [locLoop_cons_eq, if_pos hISO, dropToHeader, if_pos hISO]
    · rw [locLoop_cons_eq, if_neg hISO, if_pos (by decide), dropToHeader,
        if_neg hISO, ih]

theorem not_footer_of_iso {ln : List Char} (h : pfx (str "ISO") ln = true) :
    pfx (str "You can connect") ln = false := by
  cases ln with
  | nil => cases h
  | cons c cs =>
    have hc : 'I' = c := pfx_head_eq h
    rw [← hc]
    rfl

theorem locLoop_true_eq (ls : List (List Char)) :
    locLoop ls true =
      ((takeToFooter ls).filter fun ln => !pfx (str "ISO") ln).filterMap matchRow := by
  induction ls with
  | nil => rfl
  | cons ln rest ih =>
    by_cases hISO : pfx (str "ISO") ln = true
    · rw [locLoop_cons_eq, if_pos hISO, takeToFooter,
        List.takeWhile_cons_of_pos (by simp [not_footer_of_iso hISO]),
        List.filter_cons_of_neg (by simp [hISO]), ih]
      rfl
    · have hISO' : pfx (str "ISO") ln = false := by simpa using hISO
      by_cases hF : pfx (str "You can connect") ln = true
      · rw [locLoop_cons_eq, if_neg hISO, if_neg (by decide), if_pos hF,
          takeToFooter, List.takeWhile_cons_of_neg (by simp [hF])]
        rfl
      · have hF' : pfx (str "You can connect") ln = false := by simpa using hF
        rw [locLoop_cons_eq, if_neg hISO, if_neg (by decide), if_neg hF,
          takeToFooter, List.takeWhile_cons_of_pos (by simp [hF']),
          List.filter_cons_of_pos (by simp [hISO'])]
        cases hm : matchRow ln with
        | some row =>
          rw [List.filterMap_cons, hm, ih]
          rfl
        | none =>
          rw [List.filterMap_cons, hm, ih]
          rfl

/-- Claim C5 (amended): `parse_locations` returns exactly one row per
line strictly after the first `"ISO"` header and strictly before the
next `"You can connect"` line that matches the 4-column pattern and
does not itself begin with `"ISO"`; lines before the header, after the
footer, or not matching never produce rows. -/
theorem c5_span (text : List Char) : parse_locations text = locRowsAmended text := by
  rw [parse_locations, locRowsAmended, locLoop_false_eq]
  cases dropToHeader (locLines text) with
  | none => rfl
  | some rest => exact locLoop_true_eq rest

/-- Counterexample to C5 as stated: a data line between header and
footer that matches the 4-column pattern but happens to begin with
`"ISO"` is skipped by the code, while the claimed description yields
a row for it. -/
theorem c5_counterexample :
    matchRow (str "ISOX  Freedonia  Fredville  42") =
      some ⟨str "ISOX", str "Freedonia", str "Fredville", 42⟩ ∧
    locRowsClaim
        (str "ISO  Country  City  Ping\nISOX  Freedonia  Fredville  42\nYou can connect to 10 locations") =
      [⟨str "ISOX", str "Freedonia", str "Fredville", 42⟩] ∧
    parse_locations
        (str "ISO  Country  City  Ping\nISOX  Freedonia  Fredville  42\nYou can connect to 10 locations") =
      [] := by decide

/-! ## Claim C10: the shape of every parsed location row -/

theorem tailDigits_some {s : List Char} {n : Nat} (h : tailDigits s = some n) :
    ∃ ds, ds ≠ [] ∧ allDigits ds = true ∧ n = digitsToNat ds := by
  simp only [tailDigits] at h
  split at h
  · rename_i hcond
    obtain ⟨h2, hne, hall⟩ := hcond
    injection h with h'
    exact ⟨s.drop (wsRun s), hne, hall, h'.symm⟩
  · cases h

theorem matchCTail_cons_eq (c : Char) (rest : List Char) :
    matchCTail (c :: rest) =
      (match tailDigits rest with
       | some n => some ([c], n)
       | none =>
         match matchCTail rest with
         | some (cs, n) => some (c :: cs, n)
         | none => none) := rfl

theorem matchCTail_some {s cs : List Char} {n : Nat}
    (h : matchCTail s = some (cs, n)) :
    ∃ ds, ds ≠ [] ∧ allDigits ds = true ∧ n = digitsToNat ds := by
  induction s generalizing cs n with
  | nil => cases h
  | cons c rest ih =>
    rw [matchCTail_cons_eq] at h
    cases ht : tailDigits rest with
    | some m =>
      rw [ht] at h
      injection h with h'
      obtain ⟨ds, hds⟩ := tailDigits_some ht
      exact ⟨ds, hds.1, hds.2.1, by
        have : m = n := congrArg Prod.snd h'
        rw [← this]; exact hds.2.2⟩
    | none =>
      rw [ht] at h
      cases hc : matchCTail rest with
      | some cn =>
        obtain ⟨cs', n'⟩ := cn
        rw [hc] at h
        injection h with h'
        obtain ⟨ds, hds⟩ := ih hc
        exact ⟨ds, hds.1, hds.2.1, by
          have : n' = n := congrArg Prod.snd h'
          rw [← this]; exact hds.2.2⟩
      | none => rw [hc] at h; cases h

theorem sepTry_succ_eq (s : List Char) (k : Nat) :
    sepTry s (k + 1) =
      if k + 1 < 2 then none
      else
        match matchCTail (s.drop (k + 1)) with
        | some cn => some cn
        | none => sepTry s k := rfl

theorem sepTry_some {s : List Char} {k : Nat} {cs : List Char} {n : Nat}
    (h : sepTry s k = some (cs, n)) :
    ∃ ds, ds ≠ [] ∧ allDigits ds = true ∧ n = digitsToNat ds := by
  induction k with
  | zero => cases h
  | succ k ih =>
    rw [sepTry_succ_eq] at h
    split at h
    · cases h
    · cases hc : matchCTail (s.drop (k + 1)) with
      | some cn =>
        obtain ⟨cs', n'⟩ := cn
        rw [hc] at h
        injection h with h'
        obtain ⟨ds, hds⟩ := matchCTail_some hc
        exact ⟨ds, hds.1, hds.2.1, by
          have : n' = n := congrArg Prod.snd h'
          rw [← this]; exact hds.2.2⟩
      | none =>
        rw [hc] at h
        exact ih h

theorem matchBody_cons_eq (c : Char) (rest : List Char) :
    matchBody (c :: rest) =
      (match matchSep2C rest with
       | some (cs, n) => some ([c], cs, n)
       | none =>
         match matchBody rest with
         | some (b, cs, n) => some (c :: b, cs, n)
         | none => none) := rfl

theorem matchBody_some {s b cs : List Char} {n : Nat}
    (h : matchBody s = some (b, cs, n)) :
    ∃ ds, ds ≠ [] ∧ allDigits ds = true ∧ n = digitsToNat ds := by
  induction s generalizing b cs n with
  | nil => cases h
  | cons c rest ih =>
    rw [matchBody_cons_eq] at h
    cases hc : matchSep2C rest with
    | some cn =>
      obtain ⟨cs', n'⟩ := cn
      rw [hc] at h
      injection h with h'
      obtain ⟨ds, hds⟩ := sepTry_some hc
      refine ⟨ds, hds.1, hds.2.1, ?_⟩
      have : n' = n := congrArg (fun p => p.2.2) h'
      rw [← this]; exact hds.2.2
    | none =>
      rw [hc] at h
      cases hb : matchBody rest with
      | some bcn =>
        obtain ⟨b', cs', n'⟩ := bcn
        rw [hb] at h
        injection h with h'
        obtain ⟨ds, hds⟩ := ih hb
        refine ⟨ds, hds.1, hds.2.1, ?_⟩
        have : n' = n := congrArg (fun p => p.2.2) h'
        rw [← this]; exact hds.2.2
      | none => rw [hb] at h; cases h

theorem wsTry_succ_eq (g1 rest : List Char) (k : Nat) :
    wsTry g1 rest (k + 1) =
      (match matchBody (rest.drop (k + 1)) with
       | some (b, cs, n) => some ⟨g1, trimC b, trimC cs, n⟩
       | none => wsTry g1 rest k) := rfl

theorem wsTry_some {g1 rest : List Char} {k : Nat} {r : LocRow}
    (h : wsTry g1 rest k = some r) :
    r.iso = g1 ∧ (∃ b, r.country = trimC b) ∧ (∃ cc, r.city = trimC cc) ∧
      ∃ ds, ds ≠ [] ∧ allDigits ds = true ∧ r.ping = digitsToNat ds := by
  induction k with
  | zero => cases h
  | succ k ih =>
    rw [wsTry_succ_eq] at h
    cases hb : matchBody (rest.drop (k + 1)) with
    | some bcn =>
      obtain ⟨b, cs, n⟩ := bcn
      rw [hb] at h
      injection h with h'
      rw [← h']
      obtain ⟨ds, hds⟩ := matchBody_some hb
      exact ⟨rfl, ⟨b, rfl⟩, ⟨cs, rfl⟩, ds, hds.1, hds.2.1, hds.2.2⟩
    | none =>
      rw [hb] at h
      exact ih h

theorem matchRow_some {ln : List Char} {r : LocRow} (h : matchRow ln = some r) :
    (∀ c ∈ r.iso, isSpace c = false) ∧ r.iso ≠ [] ∧
      trimC r.country = r.country ∧ trimC r.city = r.city ∧
      ∃ ds, ds ≠ [] ∧ allDigits ds = true ∧ r.ping = digitsToNat ds := by
  rw [matchRow] at h
  split at h
  · cases h
  · rename_i hg1
    obtain ⟨hiso, ⟨b, hb⟩, ⟨cc, hcc⟩, hds⟩ := wsTry_some h
    refine ⟨?_, ?_, ?_, ?_, hds⟩
    · intro c hc
      rw [hiso] at hc
      have := List.mem_takeWhile_imp hc
      simpa using this
    · rw [hiso]; exact hg1
    · rw [hb]; exact trimC_idem b
    · rw [hcc]; exact trimC_idem cc

theorem locLoop_mem {ls : List (List Char)} {st : Bool} {r : LocRow}
    (h : r ∈ locLoop ls st) : ∃ ln, matchRow ln = some r := by
  induction ls generalizing st with
  | nil => cases h
  | cons ln rest ih =>
    rw [locLoop_cons_eq] at h
    split at h
    · exact ih h
    · split at h
      · exact ih h
      · split at h
        · cases h
        · cases hm : matchRow ln with
          | some row =>
            rw [hm] at h
            rcases List.mem_cons.mp h with heq | hmem
            · exact ⟨ln, by rw [hm, heq]⟩
            · exact ih hmem
          | none =>
            rw [hm] at h
            exact ih h

/-- Claim C10: every row produced by `parse_locations` has a
whitespace-free ISO field, non-empty, country and city fields with no
leading or trailing whitespace, and a ping that is the value of a
non-empty all-digit token (hence a non-negative integer). -/
theorem c10_row_shape (text : List Char) (r : LocRow)
    (h : r ∈ parse_locations text) :
    (∀ c ∈ r.iso, isSpace c = false) ∧ r.iso ≠ [] ∧
      trimC r.country = r.country ∧ trimC r.city = r.city ∧
      ∃ ds, ds ≠ [] ∧ allDigits ds = true ∧ r.ping = digitsToNat ds := by
  obtain ⟨ln, hln⟩ := locLoop_mem h
  exact matchRow_some hln

/-- Witness for C10 on a concrete parsed row. -/
theorem c10_witness :
    (∀ c ∈ (str "DE"), isSpace c = false) ∧ (str "DE") ≠ [] ∧
      trimC (str "Germany") = str "Germany" ∧ trimC (str "Berlin") = str "Berlin" ∧
      ∃ ds, ds ≠ [] ∧ allDigits ds = true ∧ 23 = digitsToNat ds :=
  c10_row_shape
    (str "ISO  Country  City  Ping\nDE  Germany  Berlin  23\nYou can connect")
    ⟨str "DE", str "Germany", str "Berlin", 23⟩ (by decide)

/-! ## Claim C6: config parsing is last-wins, and the boolean helper -/

/-- The key/value pair a config line contributes, if any (claim-side
description of one line of `parse_config`). -/
def kvOfLine (ln : List Char) : Option (List Char × List Char) :=
  let l := trimC ln
  if l = [] then none
  else if pfx (str "Current configuration") l = true then none
  else
    match splitFirst (str ":") l with
    | some (k, v) => some (lowerS (trimC k), trimC v)
    | none => none

/-- The value of the last pair bearing a key (claim-side description:
later occurrences overwrite earlier ones). -/
def lastKV : List (List Char × List Char) → List Char → Option (List Char)
  | [], _ => none
  | (k', v) :: rest, k =>
    match lastKV rest k with
    | some w => some w
    | none => if k' = k then some v else none

theorem dget_dset (d : List (List Char × List Char)) (k v k' : List Char) :
    dget (dset d k v) k' = if k' = k then some v else dget d k' := by
  induction d with
  | nil =>
    show dget [(k, v)] k' = _
    show (if k = k' then some v else dget [] k') = _
    by_cases h : k' = k
    · rw [if_pos h.symm, if_pos h]
    · rw [if_neg (fun hh => h hh.symm), if_neg h]
  | cons p rest ih =>
    by_cases hpk : p.1 = k
    · show dget (if p.1 = k then (k, v) :: rest else p :: dset rest k v) k' = _
      rw [if_pos hpk]
      show (if k = k' then some v else dget rest k') = _
      by_cases hk : k' = k
      · rw [if_pos hk.symm, if_pos hk]
      · rw [if_neg (fun hh => hk hh.symm), if_neg hk]
        show _ = dget (p :: rest) k'
        show _ = if p.1 = k' then some p.2 else dget rest k'
        rw [if_neg (by rw [hpk]; exact fun hh => hk hh.symm)]
    · show dget (if p.1 = k then (k, v) :: rest else p :: dset rest k v) k' = _
      rw [if_neg hpk]
      show (if p.1 = k' then some p.2 else dget (dset rest k v) k') = _
      by_cases hp' : p.1 = k'
      · rw [if_pos hp']
        have hk : k' ≠ k := by
          intro hh; rw [hh] at hp'; exact hpk hp'
        rw [if_neg hk]
        show _ = if p.1 = k' then some p.2 else dget rest k'
        rw [if_pos hp']
      · rw [if_neg hp', ih]
        by_cases hk : k' = k
        · rw [if_pos hk, if_pos hk]
        · rw [if_neg hk, if_neg hk]
          show _ = if p.1 = k' then some p.2 else dget rest k'
          rw [if_neg hp']

theorem configStep_eq_kv (d : List (List Char × List Char)) (ln : List Char) :
    configStep d ln =
      match kvOfLine ln with
      | some (k, v) => dset d k v
      | none => d := by
  simp only [configStep, kvOfLine]
  by_cases h0 : trimC ln = []
  · rw [if_pos h0, if_pos h0]
  · rw [if_neg h0, if_neg h0]
    by_cases h1 : pfx (str "Current configuration") (trimC ln) = true
    · rw [if_pos h1, if_pos h1]
    · rw [if_neg h1, if_neg h1]
      cases hs : splitFirst (str ":") (trimC ln) with
      | some kv => rfl
      | none => rfl

theorem dget_foldl (ls : List (List Char)) (d : List (List Char × List Char))
    (k : List Char) :
    dget (List.foldl configStep d ls) k =
      match lastKV (ls.filterMap kvOfLine) k with
      | some v => some v
      | none => dget d k := by
  induction ls generalizing d with
  | nil => rfl
  | cons ln rest ih =>
    rw [List.foldl_cons, configStep_eq_kv, List.filterMap_cons]
    cases hkv : kvOfLine ln with
    | none => exact ih d
    | some kv =>
      obtain ⟨k0, v0⟩ := kv
      rw [ih (dset d k0 v0)]
      show (match lastKV (rest.filterMap kvOfLine) k with
        | some v => some v
        | none => dget (dset d k0 v0) k) =
        match lastKV ((k0, v0) :: rest.filterMap kvOfLine) k with
        | some v => some v
        | none => dget d k
      cases hl : lastKV (rest.filterMap kvOfLine) k with
      | some w =>
        show some w = _
        show _ = match (match lastKV (rest.filterMap kvOfLine) k with
          | some w => some w
          | none => if k0 = k then some v0 else none) with
          | some v => some v
          | none => dget d k
        rw [hl]
      | none =>
        rw [dget_dset]
        show (if k = k0 then some v0 else dget d k) =
          match (match lastKV (rest.filterMap kvOfLine) k with
            | some w => some w
            | none => if k0 = k then some v0 else none) with
          | some v => some v
          | none => dget d k
        rw [hl]
        by_cases hk : k = k0
        · rw [if_pos hk, if_pos hk.symm]
        · rw [if_neg hk, if_neg (fun hh => hk hh.symm)]

/-- Claim C6: `parse_config` maps each lower-cased trimmed key taken
from the `key: value` lines (skipping blanks and the banner) to the
value of the last line bearing that key, the concrete scenario holds,
and `bool_on` is true exactly for the trimmed case-insensitive values
`on`, `true`, `yes`, `enabled`. -/
theorem c6_config_lookup :
    (∀ (text k : List Char),
      dget (parse_config text) k = lastKV ((splitlines text).filterMap kvOfLine) k) ∧
    dget (parse_config (str "Current configuration:\nChange system DNS: on"))
      (str "change system dns") = some (str "on") ∧
    (∀ v : List Char, bool_on v = true ↔
      (lowerS (trimC v) = str "on" ∨ lowerS (trimC v) = str "true" ∨
       lowerS (trimC v) = str "yes" ∨ lowerS (trimC v) = str "enabled")) ∧
    bool_on (str "On") = true ∧ bool_on (str " TRUE ") = true ∧
    bool_on (str "yes") = true ∧ bool_on (str "Enabled") = true ∧
    bool_on (str "off") = false ∧ bool_on (str "0") = false := by
  refine ⟨?_, by decide, ?_, by decide, by decide, by decide, by decide, by decide,
    by decide⟩
  · intro text k
    rw [parse_config, dget_foldl]
    cases lastKV ((splitlines text).filterMap kvOfLine) k with
    | some w => rfl
    | none => rfl
  · intro v
    simp only [bool_on, Bool.or_eq_true, beq_iff_eq]
    tauto

/-! ## Claim C7: error-message precedence of `run` -/

/-- Claim C7: on a non-zero exit code, `run` raises the typed failure
whose message is the cleaned stderr if non-empty, else the cleaned
stdout if non-empty, else the generic message with the exit code. -/
theorem c7_error_precedence :
    ∀ (rc : Int) (sout serr : List Char), rc ≠ 0 →
      (clean_output serr ≠ [] →
        run_result rc sout serr = .error (clean_output serr)) ∧
      (clean_output serr = [] → clean_output sout ≠ [] →
        run_result rc sout serr = .error (clean_output sout)) ∧
      (clean_output serr = [] → clean_output sout = [] →
        run_result rc sout serr = .error (str "CLI error: " ++ intChars rc)) := by
  intro rc sout serr hrc
  refine ⟨fun h => ?_, fun h1 h2 => ?_, fun h1 h2 => ?_⟩
  · simp only [run_result, pyOrS]
    rw [if_pos hrc, if_neg h]
  · simp only [run_result, pyOrS]
    rw [if_pos hrc, if_pos h1, if_neg h2]
  · simp only [run_result, pyOrS]
    rw [if_pos hrc, if_pos h1, if_pos h2]

/-- Witness for C7: the spec's scenario — empty stdout, stderr
`"License expired"`, non-zero exit. -/
theorem c7_witness :
    run_result 1 [] (str "License expired") = .error (str "License expired") := by
  have h := (c7_error_precedence 1 [] (str "License expired") (by decide)).1 (by decide)
  rw [h]
  decide

/-! ## Claim C8: the refresh data flow is all-or-nothing -/

/-- Counterexample to C8 as stated: the status fetch succeeds (and
parses to a connected status) while the config fetch fails; the model
of the refresh leaves every cached structure — including the
successfully fetched status — unchanged, so structures are not updated
independently of the other fetches. -/
theorem c8_counterexample :
    refresh_all_model ⟨⟨false, [], [], []⟩, [], [], [], [], [], [], []⟩
        (.ok (str "Connected to Paris in TUN mode, running on tun0"))
        (.ok []) (.ok []) (.ok []) (.ok []) (.error (str "boom")) =
      ⟨⟨false, [], [], []⟩, [], [], [], [], [], [], []⟩ ∧
    (parse_status (str "Connected to Paris in TUN mode, running on tun0")).connected =
      true ∧
    (⟨false, [], [], []⟩ : VpnStatus).connected = false := by
  refine ⟨rfl, by decide, rfl⟩

/-- Claim C8 (amended): a failure in any one of the six fetches leaves
every cached structure unchanged (the whole refresh is abandoned, so
previously cached data is retained for all structures, including any
whose own fetch succeeded); all structures update together exactly
when every fetch succeeds. -/
theorem c8_all_or_nothing :
    (∀ (c : RefreshData) (st fast allLoc mode excl cfg : Except (List Char) (List Char)),
      (isOkE st = false ∨ isOkE fast = false ∨ isOkE allLoc = false ∨
        isOkE mode = false ∨ isOkE excl = false ∨ isOkE cfg = false) →
      refresh_all_model c st fast allLoc mode excl cfg = c) ∧
    (∀ (c : RefreshData) (s f a m e g : List Char),
      refresh_all_model c (.ok s) (.ok f) (.ok a) (.ok m) (.ok e) (.ok g) =
        ⟨parse_status s, parse_locations f, parse_locations a, m, e,
          parse_config g, a, f⟩) := by
  constructor
  · intro c st fast allLoc mode excl cfg h
    cases st <;> cases fast <;> cases allLoc <;> cases mode <;> cases excl <;>
      cases cfg <;> first
      | rfl
      | (exfalso; simp [isOkE] at h)
  · intro c s f a m e g
    rfl

/-- Witness for C8: one failing fetch at a concrete input leaves the
cache untouched. -/
theorem c8_witness :
    refresh_all_model ⟨⟨false, [], [], []⟩, [], [], [], [], [], [], []⟩
        (.error (str "timeout")) (.ok []) (.ok []) (.ok []) (.ok []) (.ok []) =
      ⟨⟨false, [], [], []⟩, [], [], [], [], [], [], []⟩ :=
  c8_all_or_nothing.1 _ _ _ _ _ _ _ (Or.inl rfl)

/-! ## Claim C9: the facade timeouts -/

/-- Counterexample to C9 as stated: `disconnect` passes a 30-second
timeout, outside the claimed 90–120s class for connect and disconnect
actions. -/
theorem c9_counterexample :
    disconnect_cmd.timeoutSec = 30 ∧
    ¬(90 ≤ disconnect_cmd.timeoutSec ∧ disconnect_cmd.timeoutSec ≤ 120) := by
  decide

/-- Claim C9 (amended): status reads use 15s, list/config/exclusion
operations 30–60s, the connect family 90–120s, log export 120s — but
`disconnect` uses 30s, not the 90–120s class. -/
theorem c9_timeouts :
    status_cmd.timeoutSec = 15 ∧
    (∀ c, 30 ≤ (list_locations_cmd c).timeoutSec ∧
      (list_locations_cmd c).timeoutSec ≤ 60) ∧
    (30 ≤ config_show_cmd.timeoutSec ∧ config_show_cmd.timeoutSec ≤ 60) ∧
    (30 ≤ exclusions_mode_get_cmd.timeoutSec ∧
      exclusions_mode_get_cmd.timeoutSec ≤ 60) ∧
    (30 ≤ exclusions_show_cmd.timeoutSec ∧ exclusions_show_cmd.timeoutSec ≤ 60) ∧
    (90 ≤ connect_fastest_cmd.timeoutSec ∧ connect_fastest_cmd.timeoutSec ≤ 120) ∧
    (∀ l, 90 ≤ (connect_location_cmd l).timeoutSec ∧
      (connect_location_cmd l).timeoutSec ≤ 120) ∧
    (90 ≤ connect_fastest_pw_cmd.timeoutSec ∧
      connect_fastest_pw_cmd.timeoutSec ≤ 120) ∧
    (∀ l, 90 ≤ (connect_location_pw_cmd l).timeoutSec ∧
      (connect_location_pw_cmd l).timeoutSec ≤ 120) ∧
    disconnect_cmd.timeoutSec = 30 ∧
    (∀ d, (export_logs_cmd d).timeoutSec = 120) := by
  exact ⟨rfl,
    fun c => ⟨by show (30 : Nat) ≤ 60; decide, by show (60 : Nat) ≤ 60; decide⟩,
    ⟨by decide, by decide⟩, ⟨by decide, by decide⟩, ⟨by decide, by decide⟩,
    ⟨by decide, by decide⟩,
    fun l => ⟨by show (90 : Nat) ≤ 90; decide, by show (90 : Nat) ≤ 120; decide⟩,
    ⟨by decide, by decide⟩,
    fun l => ⟨by show (90 : Nat) ≤ 120; decide, by show (120 : Nat) ≤ 120; decide⟩,
    rfl, fun d => rfl⟩

end AdGuard
